import Mathlib

/-!
Verification of the coordination-number reducer and the composition ledger
described by the OpenPNM tutorial notebooks.  The notebooks only call the
library's public API (`openpnm.topotools.reduce_coordination`,
`openpnm.topotools.trim`, and the `Mixture` bookkeeping methods), so the
operations themselves are modelled from the specification and verified here.
-/

/-- A pore network's connectivity structure: edges are unordered pairs of
node indices; duplicate edges (multigraph) and any list positions are
allowed.  `edgeAt` reads the edge stored at index `i`. -/
def edgeAt (edges : List (Nat × Nat)) (i : Nat) : Nat × Nat :=
  edges.getD i (0, 0)

/-- Reachability (connectivity) between two nodes using the edges of `E`
in either orientation. -/
inductive Reach (E : List (Nat × Nat)) : Nat → Nat → Prop
  | refl (u : Nat) : Reach E u u
  | step {u v w : Nat} : Reach E u v → ((v, w) ∈ E ∨ (w, v) ∈ E) → Reach E u w

/-- A graph is connected on its first `n` nodes when every two of them are
mutually reachable. -/
def ConnectedOn (n : Nat) (E : List (Nat × Nat)) : Prop :=
  ∀ u < n, ∀ v < n, Reach E u v

/-- Merge two component labels: every node labelled `lb` is relabelled `la`. -/
def relabel (la lb : Nat) (labels : Nat → Nat) : Nat → Nat :=
  fun x => if labels x = lb then la else labels x

/-- Modelled from the spec: Kruskal-style spanning-forest pass of the
Topology Reducer (step 1 of `reduce_coordination`, whose implementation is
not part of the provided notebooks).  Edges are scanned in index order with
uniform weights — the spec allows an arbitrary spanning-tree algorithm —
and an edge index is kept exactly when it joins two distinct components of
the forest built so far. -/
def sfAux (edges : List (Nat × Nat)) :
    List Nat → (Nat → Nat) × List Nat → (Nat → Nat) × List Nat
  | [], st => st
  | i :: rest, (labels, kept) =>
      if labels (edgeAt edges i).1 = labels (edgeAt edges i).2 then
        sfAux edges rest (labels, kept)
      else
        sfAux edges rest
          (relabel (labels (edgeAt edges i).1) (labels (edgeAt edges i).2) labels,
           kept ++ [i])

/-- Modelled from the spec: the protected spanning forest, as the list of
kept edge indices. -/
def spanningForest (edges : List (Nat × Nat)) : List Nat :=
  (sfAux edges (List.range edges.length) (id, [])).2

/-- Modelled from the spec: the seeded pseudo-random number generator behind
the reducer's edge selection (the notebook seeds `np.random`; the generator
itself is not part of the provided files).  A standard linear congruential
step. -/
def lcg (s : Nat) : Nat := (1103515245 * s + 12345) % 2147483648

/-- Modelled from the spec: seeded uniform shuffling of the unprotected
pool.  Each step picks the `seed mod length`-th remaining element. -/
def shuffleAux : Nat → Nat → List Nat → List Nat
  | 0, _, l => l
  | fuel + 1, seed, l =>
    match l with
    | [] => []
    | x :: xs =>
        (x :: xs).getD (seed % (x :: xs).length) 0 ::
          shuffleAux fuel (lcg seed) ((x :: xs).eraseIdx (seed % (x :: xs).length))

def shuffle (seed : Nat) (l : List Nat) : List Nat :=
  shuffleAux l.length seed l

/-- Modelled from the spec: the number of edges the reducer tries to keep so
that the average degree `2*m'/n` approximates the target `z`. -/
def targetKeep (n : Nat) (z : ℚ) : Nat := (Rat.floor (z * n / 2)).toNat

/-- The unprotected pool: edge indices not in the spanning forest. -/
def unprotectedPool (edges : List (Nat × Nat)) : List Nat :=
  (List.range edges.length).filter (fun i => decide (i ∉ spanningForest edges))

/-- Outcome of the Topology Reducer: the protected forest, the edge indices
selected for removal, and the reported shortfall (how many removals the
target asked for beyond what the unprotected pool could supply). -/
structure ReduceResult where
  forest : List Nat
  removed : List Nat
  shortfall : Nat
  deriving DecidableEq

/-- Modelled from the spec: `openpnm.topotools.reduce_coordination` (called
by the notebook but not included in the provided files).  Step 1 protects a
spanning forest; step 2 computes how many edges must go; step 3 removes
seeded-uniformly chosen unprotected edges until the target count is reached
or the pool is exhausted, reporting the shortfall. -/
def reduceCoordination (n : Nat) (edges : List (Nat × Nat)) (z : ℚ) (seed : Nat) :
    ReduceResult :=
  { forest := spanningForest edges
    removed := (shuffle seed (unprotectedPool edges)).take
        (edges.length - targetKeep n z)
    shortfall := (edges.length - targetKeep n z) - (unprotectedPool edges).length }

/-- The edge indices the reducer retains. -/
def retainedIdx (n : Nat) (edges : List (Nat × Nat)) (z : ℚ) (seed : Nat) :
    List Nat :=
  (List.range edges.length).filter
    (fun i => decide (i ∉ (reduceCoordination n edges z seed).removed))

/-- The retained edge list `E'` itself. -/
def retainedEdges (n : Nat) (edges : List (Nat × Nat)) (z : ℚ) (seed : Nat) :
    List (Nat × Nat) :=
  (retainedIdx n edges z seed).map (edgeAt edges)

/-- The number of edges the reducer retains. -/
def retainedCount (n : Nat) (edges : List (Nat × Nat)) (z : ℚ) (seed : Nat) : Nat :=
  edges.length - (reduceCoordination n edges z seed).removed.length

/-- Error raised by the unguarded trim. -/
inductive TrimError where
  | IndexOutOfRangeError
  deriving DecidableEq

/-- Modelled from the spec: `openpnm.topotools.trim` (called by the notebook
but not included in the provided files).  Removes a caller-specified edge
index set with no connectivity guarantee: fails if any index is out of
range, silently de-duplicates repeated indices, and keeps survivors in
their relative original order. -/
def trim (edges : List (Nat × Nat)) (idxs : List Nat) :
    Except TrimError (List (Nat × Nat)) :=
  if idxs.any (fun i => decide (edges.length ≤ i)) then
    .error .IndexOutOfRangeError
  else
    .ok (((List.range edges.length).filter
      (fun i => decide (i ∉ idxs))).map (edgeAt edges))

/-- Errors of the Composition Ledger. -/
inductive LedgerError where
  | DuplicateNameError
  | NotFoundError
  | RangeError
  | UnderdeterminedError
  | InconsistentCompositionError
  deriving DecidableEq

/-- Modelled from the spec: a component is a unique name plus named scalar
properties (e.g. the molecular weight looked up by the molar-mass model). -/
structure Component where
  name : String
  props : List (String × ℚ)
  deriving DecidableEq

/-- Modelled from the spec: a mixture owns the registered components and a
per-node fraction array for each component name; `none` marks an
unresolved (unset/NaN) entry. -/
structure Mixture where
  n : Nat
  comps : List Component
  fracs : List (String × List (Option ℚ))
  deriving DecidableEq

/-- Modelled from the spec: `add_component` fails on a duplicate name and
otherwise registers the component with a fully unresolved fraction array. -/
def add_component (m : Mixture) (c : Component) : Except LedgerError Mixture :=
  if m.comps.any (fun c' => c'.name == c.name) then
    .error .DuplicateNameError
  else
    .ok { m with comps := m.comps ++ [c],
                 fracs := m.fracs ++ [(c.name, List.replicate m.n none)] }

/-- Modelled from the spec: `remove_component` fails when absent and
otherwise drops the component and its fraction array entirely. -/
def remove_component (m : Mixture) (name : String) : Except LedgerError Mixture :=
  if m.comps.any (fun c' => c'.name == name) then
    .ok { m with comps := m.comps.filter (fun c' => c'.name != name),
                 fracs := m.fracs.filter (fun p => p.1 != name) }
  else
    .error .NotFoundError

/-- Modelled from the spec: `set_fraction` overwrites a component's
per-node fraction array, failing when the component is unknown or when an
entry falls outside `[0, 1]`. -/
def set_fraction (m : Mixture) (name : String) (vals : List ℚ) :
    Except LedgerError Mixture :=
  if m.fracs.any (fun p => p.1 == name) then
    if vals.any (fun v => decide (v < 0) || decide (1 < v)) then
      .error .RangeError
    else
      .ok { m with fracs := (m.fracs.map
          (fun p => if p.1 = name then (p.1, vals.map some) else p)) }
  else
    .error .NotFoundError

/-- Scalar form of `set_fraction`: broadcast one value to all nodes. -/
def set_fraction_scalar (m : Mixture) (name : String) (v : ℚ) :
    Except LedgerError Mixture :=
  set_fraction m name (List.replicate m.n v)

/-- The live fraction of component `name` at node `j`. -/
def fracAt (m : Mixture) (name : String) (j : Nat) : Option ℚ :=
  ((m.fracs.lookup name).getD []).getD j none

/-- How many registered fraction arrays are unresolved at node `j`. -/
def unresolvedCountAt (m : Mixture) (j : Nat) : Nat :=
  (m.fracs.filter (fun p => (p.2.getD j none).isNone)).length

/-- Sum of the resolved fractions at node `j` (unresolved entries count 0). -/
def resolvedSumAt (m : Mixture) (j : Nat) : ℚ :=
  (m.fracs.map (fun p => (p.2.getD j none).getD 0)).sum

/-- The value `resolve` assigns at node `j` for an array `arr`: the stored
value when resolved, else the complement of the other fractions. -/
def resolveFracAt (m : Mixture) (arr : List (Option ℚ)) (j : Nat) : ℚ :=
  (arr.getD j none).getD (1 - resolvedSumAt m j)

/-- Modelled from the spec: `resolve()` (the notebook's
`update_mole_fractions`).  Per node: two or more unresolved components is
an error; exactly one unresolved component receives `1 - sum(others)`,
checked to lie in `[0, 1]`; zero unresolved components requires the sum to
equal 1. -/
def resolve (m : Mixture) : Except LedgerError Mixture :=
  if (List.range m.n).any (fun j => decide (2 ≤ unresolvedCountAt m j)) then
    .error .UnderdeterminedError
  else if (List.range m.n).any (fun j =>
      (unresolvedCountAt m j == 1) &&
        (decide (1 - resolvedSumAt m j < 0) ||
          decide (1 < 1 - resolvedSumAt m j))) then
    .error .InconsistentCompositionError
  else if (List.range m.n).any (fun j =>
      (unresolvedCountAt m j == 0) && !(decide (resolvedSumAt m j = 1))) then
    .error .InconsistentCompositionError
  else
    .ok { m with fracs := (m.fracs.map (fun p =>
        (p.1, (List.range m.n).map (fun j => some (resolveFracAt m p.2 j))))) }

/-- The molecular weight stored on a component (0 when absent). -/
def molWeight (c : Component) : ℚ :=
  (c.props.lookup "molecular_weight").getD 0

/-- Modelled from the spec: the mixture molar mass at node `j`, computed on
demand as `Σ fraction_i × molecular_weight_i` from the live fraction
state. -/
def molarMass (m : Mixture) (j : Nat) : ℚ :=
  (m.comps.map (fun c => (fracAt m c.name j).getD 0 * molWeight c)).sum

theorem Reach.trans {E : List (Nat × Nat)} {u v w : Nat}
    (h1 : Reach E u v) (h2 : Reach E v w) : Reach E u w := by
  induction h2 with
  | refl => exact h1
  | step _ he ih => exact Reach.step ih he

theorem Reach.single {E : List (Nat × Nat)} {u v : Nat}
    (h : (u, v) ∈ E ∨ (v, u) ∈ E) : Reach E u v :=
  Reach.step (Reach.refl u) h

theorem Reach.symm {E : List (Nat × Nat)} {u v : Nat}
    (h : Reach E u v) : Reach E v u := by
  induction h with
  | refl => exact Reach.refl _
  | step _ he ih => exact Reach.trans (Reach.single he.symm) ih

theorem Reach.mono {E E' : List (Nat × Nat)} (hE : ∀ e ∈ E, e ∈ E')
    {u v : Nat} (h : Reach E u v) : Reach E' u v := by
  induction h with
  | refl => exact Reach.refl _
  | step _ he ih =>
      exact Reach.step ih (he.imp (fun h => hE _ h) (fun h => hE _ h))

theorem Reach.of_nil {u v : Nat} (h : Reach [] u v) : u = v := by
  induction h with
  | refl => rfl
  | step _ he _ => cases he <;> simp_all

/-- Reachability only depends on which edges are present. -/
theorem Reach.congr_mem {E E' : List (Nat × Nat)}
    (hE : ∀ e, e ∈ E ↔ e ∈ E') {u v : Nat} :
    Reach E u v ↔ Reach E' u v :=
  ⟨Reach.mono fun e h => (hE e).mp h, Reach.mono fun e h => (hE e).mpr h⟩

theorem relabel_congr {la lb : Nat} {labels : Nat → Nat} {u v : Nat}
    (h : labels u = labels v) : relabel la lb labels u = relabel la lb labels v := by
  simp [relabel, h]

/-- Equal labels are preserved by the rest of the forest pass. -/
theorem sfAux_congr (edges : List (Nat × Nat)) (is : List Nat) :
    ∀ (labels : Nat → Nat) (kept : List Nat) (u v : Nat),
      labels u = labels v →
      (sfAux edges is (labels, kept)).1 u = (sfAux edges is (labels, kept)).1 v := by
  induction is with
  | nil => intro labels kept u v h; simpa [sfAux] using h
  | cons i rest ih =>
      intro labels kept u v h
      unfold sfAux
      split
      · exact ih labels kept u v h
      · exact ih _ _ u v (relabel_congr h)

/-- After the pass, both endpoints of every scanned edge carry the same
label. -/
theorem sfAux_processed (edges : List (Nat × Nat)) (is : List Nat) :
    ∀ (labels : Nat → Nat) (kept : List Nat), ∀ i ∈ is,
      (sfAux edges is (labels, kept)).1 (edgeAt edges i).1 =
      (sfAux edges is (labels, kept)).1 (edgeAt edges i).2 := by
  induction is with
  | nil => intro _ _ i hi; cases hi
  | cons j rest ih =>
      intro labels kept i hi
      rcases List.mem_cons.mp hi with rfl | hi'
      · unfold sfAux
        split
        · next h => exact sfAux_congr edges rest labels kept _ _ h
        · next h =>
            apply sfAux_congr
            simp [relabel]
      · unfold sfAux
        split
        · exact ih labels kept i hi'
        · exact ih _ _ i hi'

/-- The kept-index list only grows, and only by indices from the scan list. -/
theorem sfAux_sublist (edges : List (Nat × Nat)) (is : List Nat) :
    ∀ (labels : Nat → Nat) (kept : List Nat),
      ∃ is', (sfAux edges is (labels, kept)).2 = kept ++ is' ∧ is'.Sublist is := by
  induction is with
  | nil => intro labels kept; exact ⟨[], by simp [sfAux], List.Sublist.refl _⟩
  | cons i rest ih =>
      intro labels kept
      unfold sfAux
      split
      · obtain ⟨is', h1, h2⟩ := ih labels kept
        exact ⟨is', h1, h2.cons i⟩
      · obtain ⟨is', h1, h2⟩ := ih
          (relabel (labels (edgeAt edges i).1) (labels (edgeAt edges i).2) labels)
          (kept ++ [i])
        exact ⟨i :: is', by simpa using h1, h2.cons₂ i⟩

/-- Endpoints of any edge kept so far, or of the newly kept edge `i`, get
equal labels after the merge. -/
theorem relabel_edge_eq (edges : List (Nat × Nat)) (labels : Nat → Nat)
    (kept : List Nat) (i : Nat)
    (hinv : ∀ u v, labels u = labels v ↔ Reach (kept.map (edgeAt edges)) u v)
    {x y : Nat}
    (he : (x, y) ∈ (kept ++ [i]).map (edgeAt edges) ∨
          (y, x) ∈ (kept ++ [i]).map (edgeAt edges)) :
    relabel (labels (edgeAt edges i).1) (labels (edgeAt edges i).2) labels x =
    relabel (labels (edgeAt edges i).1) (labels (edgeAt edges i).2) labels y := by
  have hra : relabel (labels (edgeAt edges i).1) (labels (edgeAt edges i).2)
      labels (edgeAt edges i).1 = labels (edgeAt edges i).1 := by
    simp [relabel]
  have hrb : relabel (labels (edgeAt edges i).1) (labels (edgeAt edges i).2)
      labels (edgeAt edges i).2 = labels (edgeAt edges i).1 := by
    simp [relabel]
  have hcase : (x, y) ∈ kept.map (edgeAt edges) ∨
      (y, x) ∈ kept.map (edgeAt edges) ∨
      (x, y) = edgeAt edges i ∨ (y, x) = edgeAt edges i := by
    rcases he with he | he <;>
      simp only [List.map_append, List.mem_append, List.map_cons,
        List.map_nil, List.mem_singleton] at he
    · rcases he with he | he
      · exact Or.inl he
      · exact Or.inr (Or.inr (Or.inl he))
    · rcases he with he | he
      · exact Or.inr (Or.inl he)
      · exact Or.inr (Or.inr (Or.inr he))
  rcases hcase with he' | he' | he' | he'
  · exact relabel_congr ((hinv x y).mpr (Reach.single (Or.inl he')))
  · exact relabel_congr ((hinv x y).mpr (Reach.single (Or.inr he')))
  · have hx : x = (edgeAt edges i).1 := by rw [← he']
    have hy : y = (edgeAt edges i).2 := by rw [← he']
    rw [hx, hy, hra, hrb]
  · have hx : y = (edgeAt edges i).1 := by rw [← he']
    have hy : x = (edgeAt edges i).2 := by rw [← he']
    rw [hx, hy, hra, hrb]

/-- Core merge step: the union-find labelling tracks reachability through
the kept forest edges. -/
theorem relabel_inv (edges : List (Nat × Nat)) (labels : Nat → Nat)
    (kept : List Nat) (i : Nat)
    (hinv : ∀ u v, labels u = labels v ↔ Reach (kept.map (edgeAt edges)) u v) :
    ∀ u v,
      relabel (labels (edgeAt edges i).1) (labels (edgeAt edges i).2) labels u =
      relabel (labels (edgeAt edges i).1) (labels (edgeAt edges i).2) labels v ↔
      Reach ((kept ++ [i]).map (edgeAt edges)) u v := by
  have hmem : (edgeAt edges i).1 ∈ [] ∨ True := Or.inr trivial
  have hmono : ∀ u v, Reach (kept.map (edgeAt edges)) u v →
      Reach ((kept ++ [i]).map (edgeAt edges)) u v := by
    intro u v
    apply Reach.mono
    intro e he
    rw [List.map_append, List.mem_append]
    exact Or.inl he
  have hab : Reach ((kept ++ [i]).map (edgeAt edges))
      (edgeAt edges i).1 (edgeAt edges i).2 := by
    apply Reach.single
    left
    rw [List.map_append, List.mem_append]
    right
    simp
  intro u v
  constructor
  · intro h
    simp only [relabel] at h
    by_cases hu : labels u = labels (edgeAt edges i).2 <;>
      by_cases hv : labels v = labels (edgeAt edges i).2
    · exact hmono u v ((hinv u v).mp (hu.trans hv.symm))
    · rw [if_pos hu, if_neg hv] at h
      have h1 : Reach ((kept ++ [i]).map (edgeAt edges)) u (edgeAt edges i).2 :=
        hmono _ _ ((hinv _ _).mp hu)
      have h2 : Reach ((kept ++ [i]).map (edgeAt edges)) (edgeAt edges i).1 v :=
        hmono _ _ ((hinv _ _).mp h)
      exact (h1.trans hab.symm).trans h2
    · rw [if_neg hu, if_pos hv] at h
      have h1 : Reach ((kept ++ [i]).map (edgeAt edges)) u (edgeAt edges i).1 :=
        hmono _ _ ((hinv _ _).mp h)
      have h2 : Reach ((kept ++ [i]).map (edgeAt edges)) (edgeAt edges i).2 v :=
        hmono _ _ ((hinv _ _).mp hv.symm)
      exact (h1.trans hab).trans h2
    · rw [if_neg hu, if_neg hv] at h
      exact hmono u v ((hinv u v).mp h)
  · intro h
    induction h with
    | refl => rfl
    | step _ he ih =>
        exact ih.trans (relabel_edge_eq edges labels kept i hinv he)

/-- The labelling invariant is maintained through the whole pass. -/
theorem sfAux_inv (edges : List (Nat × Nat)) (is : List Nat) :
    ∀ (labels : Nat → Nat) (kept : List Nat),
      (∀ u v, labels u = labels v ↔ Reach (kept.map (edgeAt edges)) u v) →
      ∀ u v, (sfAux edges is (labels, kept)).1 u = (sfAux edges is (labels, kept)).1 v ↔
        Reach ((sfAux edges is (labels, kept)).2.map (edgeAt edges)) u v := by
  induction is with
  | nil => intro labels kept hinv; simpa [sfAux] using hinv
  | cons i rest ih =>
      intro labels kept hinv
      unfold sfAux
      split
      · exact ih labels kept hinv
      · exact ih _ _ (relabel_inv edges labels kept i hinv)

theorem edgeAt_of_mem {edges : List (Nat × Nat)} {e : Nat × Nat} (h : e ∈ edges) :
    ∃ i, i < edges.length ∧ edgeAt edges i = e := by
  obtain ⟨i, hi, he⟩ := List.mem_iff_getElem.mp h
  exact ⟨i, hi, by rw [edgeAt, List.getD_eq_getElem _ _ hi, he]⟩

theorem edgeAt_mem {edges : List (Nat × Nat)} {i : Nat} (h : i < edges.length) :
    edgeAt edges i ∈ edges := by
  rw [edgeAt, List.getD_eq_getElem _ _ h]
  exact List.getElem_mem h

/-- Any two nodes connected in the input graph are connected using only the
spanning-forest edges. -/
theorem spanningForest_reach (edges : List (Nat × Nat)) {u v : Nat}
    (h : Reach edges u v) :
    Reach ((spanningForest edges).map (edgeAt edges)) u v := by
  have h0 : ∀ u v : Nat, id u = id v ↔ Reach (([] : List Nat).map (edgeAt edges)) u v := by
    intro u v
    constructor
    · intro h; simp only [id] at h; rw [h]; exact Reach.refl v
    · intro h; simpa using Reach.of_nil (by simpa using h)
  have hinv := sfAux_inv edges (List.range edges.length) id [] h0
  have hproc := sfAux_processed edges (List.range edges.length) id []
  have hkey : (sfAux edges (List.range edges.length) (id, [])).1 u =
      (sfAux edges (List.range edges.length) (id, [])).1 v := by
    induction h with
    | refl => rfl
    | step _ he ih =>
        refine ih.trans ?_
        rcases he with he | he
        · obtain ⟨i, hi, hei⟩ := edgeAt_of_mem he
          have := hproc i (List.mem_range.mpr hi)
          rw [hei] at this
          exact this
        · obtain ⟨i, hi, hei⟩ := edgeAt_of_mem he
          have := hproc i (List.mem_range.mpr hi)
          rw [hei] at this
          exact this.symm
  exact (hinv u v).mp hkey

/-- The spanning forest is a duplicate-free list of valid edge indices. -/
theorem spanningForest_sublist_range (edges : List (Nat × Nat)) :
    (spanningForest edges).Sublist (List.range edges.length) := by
  obtain ⟨is', h1, h2⟩ := sfAux_sublist edges (List.range edges.length) id []
  rw [spanningForest, h1]
  simpa using h2

theorem spanningForest_lt (edges : List (Nat × Nat)) {i : Nat}
    (h : i ∈ spanningForest edges) : i < edges.length :=
  List.mem_range.mp ((spanningForest_sublist_range edges).subset h)

theorem spanningForest_nodup (edges : List (Nat × Nat)) :
    (spanningForest edges).Nodup :=
  (List.nodup_range _).sublist (spanningForest_sublist_range edges)

theorem cons_getD_eraseIdx_perm {l : List Nat} {r : Nat} (h : r < l.length) :
    (l.getD r 0 :: l.eraseIdx r).Perm l := by
  rw [List.getD_eq_getElem _ _ h]
  exact (List.Perm.cons l[r] (List.erase_getElem h)).symm.trans
    (List.perm_cons_erase (List.getElem_mem h)).symm

theorem shuffleAux_perm :
    ∀ (fuel seed : Nat) (l : List Nat), l.length ≤ fuel →
      (shuffleAux fuel seed l).Perm l := by
  intro fuel
  induction fuel with
  | zero => intro seed l h; exact List.Perm.refl l
  | succ fuel ih =>
      intro seed l h
      match l with
      | [] => exact List.Perm.refl []
      | x :: xs =>
          have hr : seed % (x :: xs).length < (x :: xs).length :=
            Nat.mod_lt _ (by simp)
          have hlen : ((x :: xs).eraseIdx (seed % (x :: xs).length)).length ≤ fuel := by
            have := List.length_eraseIdx_add_one hr
            simp only [List.length_cons] at *
            omega
          show ((x :: xs).getD (seed % (x :: xs).length) 0 ::
              shuffleAux fuel (lcg seed)
                ((x :: xs).eraseIdx (seed % (x :: xs).length))).Perm (x :: xs)
          exact (List.Perm.cons _ (ih _ _ hlen)).trans (cons_getD_eraseIdx_perm hr)

theorem shuffle_perm (seed : Nat) (l : List Nat) : (shuffle seed l).Perm l :=
  shuffleAux_perm l.length seed l (Nat.le_refl _)

theorem mem_unprotectedPool {edges : List (Nat × Nat)} {i : Nat} :
    i ∈ unprotectedPool edges ↔ i < edges.length ∧ i ∉ spanningForest edges := by
  simp [unprotectedPool, List.mem_filter, List.mem_range]

theorem removed_subset_pool {n : Nat} {edges : List (Nat × Nat)} {z : ℚ}
    {seed : Nat} {i : Nat} (h : i ∈ (reduceCoordination n edges z seed).removed) :
    i ∈ unprotectedPool edges := by
  have h1 : i ∈ shuffle seed (unprotectedPool edges) :=
    (List.take_sublist _ _).subset h
  exact (shuffle_perm seed (unprotectedPool edges)).subset h1

theorem forest_not_removed {n : Nat} {edges : List (Nat × Nat)} {z : ℚ}
    {seed : Nat} {i : Nat} (h : i ∈ spanningForest edges) :
    i ∉ (reduceCoordination n edges z seed).removed := by
  intro hmem
  exact (mem_unprotectedPool.mp (removed_subset_pool hmem)).2 h

theorem mem_retainedIdx {n : Nat} {edges : List (Nat × Nat)} {z : ℚ}
    {seed : Nat} {i : Nat} :
    i ∈ retainedIdx n edges z seed ↔
      i < edges.length ∧ i ∉ (reduceCoordination n edges z seed).removed := by
  simp [retainedIdx, List.mem_filter, List.mem_range]

theorem forest_subset_retainedIdx {n : Nat} {edges : List (Nat × Nat)} {z : ℚ}
    {seed : Nat} {i : Nat} (h : i ∈ spanningForest edges) :
    i ∈ retainedIdx n edges z seed :=
  mem_retainedIdx.mpr ⟨spanningForest_lt edges h, forest_not_removed h⟩

theorem retainedEdges_subset {n : Nat} {edges : List (Nat × Nat)} {z : ℚ}
    {seed : Nat} {e : Nat × Nat} (h : e ∈ retainedEdges n edges z seed) :
    e ∈ edges := by
  obtain ⟨i, hi, rfl⟩ := List.mem_map.mp h
  exact edgeAt_mem (mem_retainedIdx.mp hi).1

/-- Connectivity transfers from the input to the retained subgraph. -/
theorem retained_reach {n : Nat} {edges : List (Nat × Nat)} {z : ℚ} {seed : Nat}
    {u v : Nat} (h : Reach edges u v) : Reach (retainedEdges n edges z seed) u v := by
  refine Reach.mono ?_ (spanningForest_reach edges h)
  intro e he
  obtain ⟨i, hi, rfl⟩ := List.mem_map.mp he
  exact List.mem_map.mpr ⟨i, forest_subset_retainedIdx hi, rfl⟩

/-- C1: for every connected input graph and every target average degree
`z ≥ 2*(n-1)/n`, the Topology Reducer's retained edge subset `E'` induces a
connected graph on the full node set, and connectivity is preserved exactly
when the input was connected. -/
theorem reducer_preserves_connectivity (n : Nat) (edges : List (Nat × Nat))
    (z : ℚ) (seed : Nat) (hn : 0 < n) (hz : 2 * ((n : ℚ) - 1) / n ≤ z) :
    ConnectedOn n (retainedEdges n edges z seed) ↔ ConnectedOn n edges := by
  constructor
  · intro h u hu v hv
    exact Reach.mono (fun e he => retainedEdges_subset he) (h u hu v hv)
  · intro h u hu v hv
    exact retained_reach (h u hu v hv)

theorem reducer_preserves_connectivity_witness :
    0 < 2 ∧ 2 * ((2 : ℚ) - 1) / 2 ≤ 2 ∧
      (ConnectedOn 2 (retainedEdges 2 [(0, 1)] 2 0) ↔ ConnectedOn 2 [(0, 1)]) :=
  ⟨by decide, by with_unfolding_all decide,
    reducer_preserves_connectivity 2 [(0, 1)] 2 0 (by decide)
      (by with_unfolding_all decide)⟩

/-- C2: for every input graph, every target degree `z` and every random
seed, no edge of the spanning forest computed in step 1 appears in the
removed set; protected edges are never removed. -/
theorem spanning_forest_edges_never_removed (n : Nat) (edges : List (Nat × Nat))
    (z : ℚ) (seed : Nat) (i : Nat) (h : i ∈ spanningForest edges) :
    i ∉ (reduceCoordination n edges z seed).removed :=
  forest_not_removed h

theorem spanning_forest_edges_never_removed_witness :
    0 ∈ spanningForest [(0, 1)] ∧
      0 ∉ (reduceCoordination 2 [(0, 1)] 2 0).removed :=
  ⟨by decide, spanning_forest_edges_never_removed 2 [(0, 1)] 2 0 0 (by decide)⟩

/-- C5: the Topology Reducer is deterministic as a two-run property — two
runs on the same input graph, the same target degree and the same seed
produce identical removed-edge sets and identical retained sets. -/
theorem reducer_deterministic (n₁ n₂ : Nat) (edges₁ edges₂ : List (Nat × Nat))
    (z₁ z₂ : ℚ) (s₁ s₂ : Nat)
    (hn : n₁ = n₂) (he : edges₁ = edges₂) (hz : z₁ = z₂) (hs : s₁ = s₂) :
    (reduceCoordination n₁ edges₁ z₁ s₁).removed =
        (reduceCoordination n₂ edges₂ z₂ s₂).removed ∧
      retainedIdx n₁ edges₁ z₁ s₁ = retainedIdx n₂ edges₂ z₂ s₂ := by
  subst hn; subst he; subst hz; subst hs
  exact ⟨rfl, rfl⟩

theorem reducer_deterministic_witness :
    (reduceCoordination 3 [(0, 1), (1, 2)] 2 7).removed =
        (reduceCoordination 3 [(0, 1), (1, 2)] 2 7).removed ∧
      retainedIdx 3 [(0, 1), (1, 2)] 2 7 = retainedIdx 3 [(0, 1), (1, 2)] 2 7 :=
  reducer_deterministic 3 3 [(0, 1), (1, 2)] [(0, 1), (1, 2)] 2 2 7 7
    rfl rfl rfl rfl

/-- The pool and the forest together never exceed the edge count. -/
theorem pool_forest_length (edges : List (Nat × Nat)) :
    (unprotectedPool edges).length + (spanningForest edges).length ≤
      edges.length := by
  have hsplit := List.length_eq_length_filter_add
    (l := List.range edges.length) (fun i => decide (i ∉ spanningForest edges))
  have hsub : spanningForest edges ⊆
      (List.range edges.length).filter
        (fun i => !(decide (i ∉ spanningForest edges))) := by
    intro i hi
    rw [List.mem_filter]
    exact ⟨List.mem_range.mpr (spanningForest_lt edges hi), by simp [hi]⟩
  have hsp := (List.subperm_of_subset (spanningForest_nodup edges) hsub).length_le
  have hlen : (List.range edges.length).length = edges.length :=
    List.length_range _
  rw [hlen] at hsplit
  rw [unprotectedPool]
  omega

theorem removed_length (n : Nat) (edges : List (Nat × Nat)) (z : ℚ) (seed : Nat) :
    (reduceCoordination n edges z seed).removed.length =
      min (edges.length - targetKeep n z) (unprotectedPool edges).length := by
  show ((shuffle seed (unprotectedPool edges)).take _).length = _
  rw [List.length_take, (shuffle_perm seed (unprotectedPool edges)).length_eq]

/-- C4: for every connected input graph, if the target degree `z` implies
retaining fewer edges than the spanning forest contains, the reducer
removes exactly the unprotected edges and no more — the retained set is
exactly the spanning forest — and the shortfall is reported as positive. -/
theorem reducer_stops_at_spanning_forest (n : Nat) (edges : List (Nat × Nat))
    (z : ℚ) (seed : Nat) (hconn : ConnectedOn n edges)
    (ht : targetKeep n z < (spanningForest edges).length) :
    (∀ i, i ∈ (reduceCoordination n edges z seed).removed ↔
        i ∈ unprotectedPool edges) ∧
      (∀ i, i ∈ retainedIdx n edges z seed ↔ i ∈ spanningForest edges) ∧
      0 < (reduceCoordination n edges z seed).shortfall := by
  have hpf := pool_forest_length edges
  have hflen : (spanningForest edges).length ≤ edges.length := by omega
  have hk : (unprotectedPool edges).length < edges.length - targetKeep n z := by
    omega
  have hrm : (reduceCoordination n edges z seed).removed =
      shuffle seed (unprotectedPool edges) := by
    show (shuffle seed (unprotectedPool edges)).take _ = _
    apply List.take_of_length_le
    rw [(shuffle_perm seed (unprotectedPool edges)).length_eq]
    omega
  refine ⟨?_, ?_, ?_⟩
  · intro i
    rw [hrm]
    exact (shuffle_perm seed (unprotectedPool edges)).mem_iff
  · intro i
    rw [mem_retainedIdx]
    constructor
    · rintro ⟨hi, hnr⟩
      by_contra hF
      apply hnr
      rw [hrm]
      exact (shuffle_perm seed (unprotectedPool edges)).mem_iff.mpr
        (mem_unprotectedPool.mpr ⟨hi, hF⟩)
    · intro hF
      exact ⟨spanningForest_lt edges hF, forest_not_removed hF⟩
  · show 0 < (edges.length - targetKeep n z) - (unprotectedPool edges).length
    omega

theorem reducer_stops_at_spanning_forest_witness :
    targetKeep 2 0 < (spanningForest [(0, 1)]).length ∧
      (∀ i, i ∈ retainedIdx 2 [(0, 1)] 0 0 ↔ i ∈ spanningForest [(0, 1)]) ∧
      0 < (reduceCoordination 2 [(0, 1)] 0 0).shortfall := by
  have hconn : ConnectedOn 2 [(0, 1)] := by
    intro u hu v hv
    interval_cases u <;> interval_cases v
    · exact Reach.refl 0
    · exact Reach.single (Or.inl (by simp))
    · exact Reach.single (Or.inr (by simp))
    · exact Reach.refl 1
  have ht : targetKeep 2 0 < (spanningForest [(0, 1)]).length := by
    with_unfolding_all decide
  obtain ⟨h1, h2, h3⟩ := reducer_stops_at_spanning_forest 2 [(0, 1)] 0 0 hconn ht
  exact ⟨ht, h2, h3⟩

/-- C10: when the target is reachable and the unprotected pool is large
enough to reach it, the reducer hits the target average degree to within
one edge's granularity: `|2*m'/n - z| < 2/n`. -/
theorem reducer_hits_target (n : Nat) (edges : List (Nat × Nat)) (z : ℚ)
    (seed : Nat) (hn : 0 < n) (hz : 0 ≤ z)
    (ht : targetKeep n z ≤ edges.length)
    (hpool : edges.length - targetKeep n z ≤ (unprotectedPool edges).length) :
    |2 * (retainedCount n edges z seed : ℚ) / n - z| < 2 / n := by
  have hcount : retainedCount n edges z seed = targetKeep n z := by
    rw [retainedCount, removed_length, Nat.min_eq_left hpool]
    omega
  rw [hcount]
  have hnq : (0 : ℚ) < n := by exact_mod_cast hn
  have hne : ((n : ℚ)) ≠ 0 := ne_of_gt hnq
  have hx0 : (0 : ℚ) ≤ z * n / 2 := by positivity
  have hfl : Rat.floor (z * n / 2) = ⌊z * (n : ℚ) / 2⌋ := by
    rw [Rat.floor_def', Rat.floor_def]
  have h3 : ((targetKeep n z : Nat) : ℚ) = ((⌊z * (n : ℚ) / 2⌋ : ℤ) : ℚ) := by
    have h4 : ((⌊z * (n : ℚ) / 2⌋).toNat : ℤ) = ⌊z * (n : ℚ) / 2⌋ :=
      Int.toNat_of_nonneg (Int.floor_nonneg.mpr hx0)
    rw [targetKeep, hfl]
    exact_mod_cast congrArg (fun x : ℤ => (x : ℚ)) h4
  have h1 : ((⌊z * (n : ℚ) / 2⌋ : ℤ) : ℚ) ≤ z * n / 2 := Int.floor_le _
  have h2 : z * (n : ℚ) / 2 < ((⌊z * (n : ℚ) / 2⌋ : ℤ) : ℚ) + 1 :=
    Int.lt_floor_add_one _
  have e1 : 2 * ((targetKeep n z : Nat) : ℚ) / n - z =
      (2 * ((targetKeep n z : Nat) : ℚ) - z * n) / n := by
    field_simp
    ring
  rw [e1, abs_div, abs_of_pos hnq, div_lt_div_iff₀ hnq hnq]
  have habs : |2 * ((targetKeep n z : Nat) : ℚ) - z * n| < 2 := by
    rw [abs_lt]
    constructor <;> nlinarith [h1, h2, h3]
  nlinarith [habs, hnq]

theorem reducer_hits_target_witness :
    0 < 2 ∧ (0 : ℚ) ≤ 1 ∧ targetKeep 2 1 ≤ 2 ∧
      2 - targetKeep 2 1 ≤ (unprotectedPool [(0, 1), (0, 1)]).length ∧
      |2 * (retainedCount 2 [(0, 1), (0, 1)] 1 0 : ℚ) / 2 - 1| < 2 / 2 := by
  refine ⟨by decide, by with_unfolding_all decide, ?_, ?_, ?_⟩
  · show targetKeep 2 1 ≤ 2
    with_unfolding_all decide
  · show 2 - targetKeep 2 1 ≤ (unprotectedPool [(0, 1), (0, 1)]).length
    with_unfolding_all decide
  · have hle : ([(0, 1), (0, 1)] : List (Nat × Nat)).length = 2 := rfl
    have := reducer_hits_target 2 [(0, 1), (0, 1)] 1 0 (by decide)
      (by with_unfolding_all decide)
      (by rw [hle]; with_unfolding_all decide)
      (by rw [hle]; with_unfolding_all decide)
    simpa using this

/-- C6: the unguarded trim fails with `IndexOutOfRangeError` when any index
lies outside `[0, m)`, and otherwise removes each distinct valid index
exactly once, so the result has `m - |dedup idxs|` edges. -/
theorem trim_spec (edges : List (Nat × Nat)) (idxs : List Nat) :
    ((∃ i ∈ idxs, edges.length ≤ i) →
        trim edges idxs = .error .IndexOutOfRangeError) ∧
      ((∀ i ∈ idxs, i < edges.length) →
        ∃ res, trim edges idxs = .ok res ∧
          res.length = edges.length - idxs.dedup.length) := by
  constructor
  · intro h
    rw [trim, if_pos]
    rw [List.any_eq_true]
    obtain ⟨i, hi, hle⟩ := h
    exact ⟨i, hi, by simpa using hle⟩
  · intro h
    have hguard : idxs.any (fun i => decide (edges.length ≤ i)) = false := by
      rw [List.any_eq_false]
      intro i hi
      simpa using Nat.not_le.mpr (h i hi)
    refine ⟨_, by rw [trim, if_neg (by simp [hguard])], ?_⟩
    rw [List.length_map]
    have hsplit := List.length_eq_length_filter_add
      (l := List.range edges.length) (fun i => decide (i ∉ idxs))
    have hlenr : (List.range edges.length).length = edges.length :=
      List.length_range _
    rw [hlenr] at hsplit
    have hmemL : ∀ i, i ∈ (List.range edges.length).filter
        (fun i => !(decide (i ∉ idxs))) ↔ i ∈ idxs.dedup := by
      intro i
      rw [List.mem_filter, List.mem_range, List.mem_dedup]
      constructor
      · rintro ⟨_, hd⟩
        simpa using hd
      · intro hi
        exact ⟨h i hi, by simpa using hi⟩
    have hnd1 : ((List.range edges.length).filter
        (fun i => !(decide (i ∉ idxs)))).Nodup :=
      (List.nodup_range _).filter _
    have hle1 := (List.subperm_of_subset hnd1
      (fun i hi => (hmemL i).mp hi)).length_le
    have hle2 := (List.subperm_of_subset (List.nodup_dedup idxs)
      (fun i hi => (hmemL i).mpr hi)).length_le
    omega

theorem trim_spec_witness :
    (∃ res,
        trim [(0, 1), (1, 2), (2, 3), (3, 4), (4, 5), (5, 6), (6, 7), (7, 8),
            (8, 9), (9, 0)] [3, 3, 7] = .ok res ∧ res.length = 8) ∧
      trim [(0, 1), (1, 2), (2, 3), (3, 4), (4, 5), (5, 6), (6, 7), (7, 8),
          (8, 9), (9, 0)] [12] = .error .IndexOutOfRangeError := by
  constructor
  · obtain ⟨res, h1, h2⟩ := (trim_spec [(0, 1), (1, 2), (2, 3), (3, 4), (4, 5),
      (5, 6), (6, 7), (7, 8), (8, 9), (9, 0)] [3, 3, 7]).2 (by decide)
    exact ⟨res, h1, by rw [h2]; decide⟩
  · exact (trim_spec [(0, 1), (1, 2), (2, 3), (3, 4), (4, 5), (5, 6), (6, 7),
      (7, 8), (8, 9), (9, 0)] [12]).1 ⟨12, by decide, by decide⟩

/-- Keyed lookup through a key-preserving map: with duplicate-free keys, the
entry found for `k` is the image of the unique stored entry `(k, b)`. -/
theorem lookup_map_keyed {β γ : Type} (g : String × β → γ) :
    ∀ (l : List (String × β)) (k : String) (b : β),
      (k, b) ∈ l → (l.map Prod.fst).Nodup →
      (l.map (fun p => (p.1, g p))).lookup k = some (g (k, b)) := by
  intro l
  induction l with
  | nil => intro k b hmem _; cases hmem
  | cons hd tl ih =>
      intro k b hmem hnd
      rw [List.map_cons, List.nodup_cons] at hnd
      by_cases hk : k = hd.1
      · have hbeq : (k == hd.1) = true := by simp [hk]
        rcases List.mem_cons.mp hmem with heq | hmem'
        · rw [← heq]
          simp [List.lookup]
        · have hin : k ∈ tl.map Prod.fst := List.mem_map.mpr ⟨(k, b), hmem', rfl⟩
          rw [hk] at hin
          exact absurd hin hnd.1
      · have hbeq : (k == hd.1) = false := by
          rw [beq_eq_false_iff_ne]
          exact hk
        simp only [List.map_cons, List.lookup, hbeq]
        rcases List.mem_cons.mp hmem with heq | hmem'
        · exact absurd (congrArg Prod.fst heq) hk
        · exact ih k b hmem' hnd.2

/-- Plain lookup with duplicate-free keys finds the stored value. -/
theorem lookup_of_mem_nodup {β : Type} :
    ∀ {l : List (String × β)} {k : String} {b : β},
      (k, b) ∈ l → (l.map Prod.fst).Nodup → l.lookup k = some b := by
  intro l
  induction l with
  | nil => intro k b hmem _; cases hmem
  | cons hd tl ih =>
      intro k b hmem hnd
      rw [List.map_cons, List.nodup_cons] at hnd
      by_cases hk : k = hd.1
      · have hbeq : (k == hd.1) = true := by simp [hk]
        rcases List.mem_cons.mp hmem with heq | hmem'
        · rw [← heq]
          simp [List.lookup]
        · have hin : k ∈ tl.map Prod.fst := List.mem_map.mpr ⟨(k, b), hmem', rfl⟩
          rw [hk] at hin
          exact absurd hin hnd.1
      · have hbeq : (k == hd.1) = false := by
          rw [beq_eq_false_iff_ne]
          exact hk
        simp only [List.lookup, hbeq]
        rcases List.mem_cons.mp hmem with heq | hmem'
        · exact absurd (congrArg Prod.fst heq) hk
        · exact ih hmem' hnd.2

/-- Lookup skips a prefix that does not contain the key. -/
theorem lookup_append_of_not_mem {β : Type} :
    ∀ {l l' : List (String × β)} {k : String},
      (∀ p ∈ l, p.1 ≠ k) → (l ++ l').lookup k = l'.lookup k := by
  intro l
  induction l with
  | nil => intro l' k _; rfl
  | cons hd tl ih =>
      intro l' k h
      have hbeq : (k == hd.1) = false := by
        rw [beq_eq_false_iff_ne]
        exact fun hk => h hd (List.mem_cons_self hd tl) hk.symm
      rw [List.cons_append]
      simp only [List.lookup, hbeq]
      exact ih fun p hp => h p (List.mem_cons_of_mem hd hp)

/-- A filter whose sole match in a duplicate-free list is `a` returns
`[a]`. -/
theorem filter_eq_singleton_of_unique {α : Type} {p : α → Bool} :
    ∀ {l : List α} {a : α}, l.Nodup → a ∈ l → p a = true →
      (∀ b ∈ l, p b = true → b = a) → l.filter p = [a] := by
  intro l
  induction l with
  | nil => intro a _ ha _ _; cases ha
  | cons x xs ih =>
      intro a hnd ha hpa huniq
      rw [List.nodup_cons] at hnd
      rcases List.mem_cons.mp ha with rfl | ha'
      · rw [List.filter_cons_of_pos hpa]
        have hnil : xs.filter p = [] := by
          rw [List.filter_eq_nil_iff]
          intro b hb hpb
          exact hnd.1 (huniq b (List.mem_cons_of_mem _ hb) hpb ▸ hb)
        rw [hnil]
      · have hpx : p x = false := by
          by_contra hpx
          rw [Bool.not_eq_false] at hpx
          have := huniq x (List.mem_cons_self x xs) hpx
          rw [this] at hnd
          exact hnd.1 ha'
        rw [List.filter_cons_of_neg (by simp [hpx])]
        exact ih hnd.2 ha' hpa
          (fun b hb hpb => huniq b (List.mem_cons_of_mem _ hb) hpb)

/-- C7: whenever two or more components are unresolved at some node,
`resolve()` fails with `UnderdeterminedError` (and, returning an error, sets
no fractions). -/
theorem resolve_underdetermined (m : Mixture)
    (h : ∃ j < m.n, 2 ≤ unresolvedCountAt m j) :
    resolve m = .error .UnderdeterminedError := by
  rw [resolve, if_pos]
  rw [List.any_eq_true]
  obtain ⟨j, hj, h2⟩ := h
  exact ⟨j, List.mem_range.mpr hj, by simpa using h2⟩

theorem resolve_underdetermined_witness :
    (∃ j < (⟨1, [], [("a", [none]), ("b", [none])]⟩ : Mixture).n,
        2 ≤ unresolvedCountAt ⟨1, [], [("a", [none]), ("b", [none])]⟩ j) ∧
      resolve ⟨1, [], [("a", [none]), ("b", [none])]⟩ =
        .error .UnderdeterminedError :=
  ⟨⟨0, by decide, by decide⟩,
    resolve_underdetermined ⟨1, [], [("a", [none]), ("b", [none])]⟩
      ⟨0, by decide, by decide⟩⟩

/-- C8: adding a fresh component succeeds, and removing a registered
component then re-adding it with the same name succeeds and leaves its
fraction array fully unresolved — no earlier fraction data survives. -/
theorem component_roundtrip_resets (m₀ m₁ : Mixture) (c : Component)
    (h0 : ∀ c' ∈ m₀.comps, c'.name ≠ c.name)
    (h1 : ∃ c' ∈ m₁.comps, c'.name = c.name) :
    (∃ ma, add_component m₀ c = .ok ma ∧ ∃ c' ∈ ma.comps, c'.name = c.name) ∧
      ∃ m₂ m₃, remove_component m₁ c.name = .ok m₂ ∧
        add_component m₂ c = .ok m₃ ∧
        m₃.fracs.lookup c.name = some (List.replicate m₁.n none) := by
  constructor
  · have hg : m₀.comps.any (fun c' => c'.name == c.name) = false := by
      rw [List.any_eq_false]
      intro c' hc'
      simpa using h0 c' hc'
    refine ⟨_, by rw [add_component, if_neg (by simp [hg])], ?_⟩
    exact ⟨c, by simp, rfl⟩
  · have hg1 : m₁.comps.any (fun c' => c'.name == c.name) = true := by
      rw [List.any_eq_true]
      obtain ⟨c', hc', he⟩ := h1
      exact ⟨c', hc', by simpa using he⟩
    have hrm : remove_component m₁ c.name =
        .ok { m₁ with comps := m₁.comps.filter (fun c' => c'.name != c.name),
                      fracs := m₁.fracs.filter (fun p => p.1 != c.name) } := by
      rw [remove_component, if_pos (by simp [hg1])]
    have hg2 : (m₁.comps.filter (fun c' => c'.name != c.name)).any
        (fun c' => c'.name == c.name) = false := by
      rw [List.any_eq_false]
      intro c' hc'
      have := (List.mem_filter.mp hc').2
      simpa using (by simpa using this : c'.name ≠ c.name)
    have hadd : add_component
        { m₁ with comps := m₁.comps.filter (fun c' => c'.name != c.name),
                  fracs := m₁.fracs.filter (fun p => p.1 != c.name) } c =
        .ok { n := m₁.n,
              comps := m₁.comps.filter (fun c' => c'.name != c.name) ++ [c],
              fracs := m₁.fracs.filter (fun p => p.1 != c.name) ++
                [(c.name, List.replicate m₁.n none)] } := by
      rw [add_component, if_neg (by simp [hg2])]
    have hlook : (m₁.fracs.filter
        (fun p : String × List (Option ℚ) => p.1 != c.name) ++
        [(c.name, List.replicate m₁.n none)]).lookup c.name =
        some (List.replicate m₁.n none) := by
      rw [lookup_append_of_not_mem]
      · simp [List.lookup]
      · intro p hp
        simpa using (List.mem_filter.mp hp).2
    exact ⟨_, _, hrm, hadd, hlook⟩

theorem component_roundtrip_resets_witness :
    (∃ ma, add_component ⟨2, [], []⟩ ⟨"oxygen", []⟩ = .ok ma ∧
        ∃ c' ∈ ma.comps, c'.name = "oxygen") ∧
      ∃ m₂ m₃,
        remove_component
            ⟨2, [⟨"oxygen", []⟩], [("oxygen", [some (1 : ℚ), some 0])]⟩
            "oxygen" = .ok m₂ ∧
          add_component m₂ ⟨"oxygen", []⟩ = .ok m₃ ∧
          m₃.fracs.lookup "oxygen" = some (List.replicate 2 none) :=
  component_roundtrip_resets ⟨2, [], []⟩
    ⟨2, [⟨"oxygen", []⟩], [("oxygen", [some 1, some 0])]⟩ ⟨"oxygen", []⟩
    (by intro c' hc'; cases hc')
    ⟨⟨"oxygen", []⟩, List.mem_cons.mpr (Or.inl rfl), rfl⟩

/-- C9: derived mixture properties are never stale — after a successful
`set_fraction`, the molar mass queried at a node is exactly the sum over
components of the current fraction (the freshly set values for the updated
component, the live stored values for the others) times the component's
molecular weight. -/
theorem molar_mass_reflects_set_fraction (m : Mixture) (name : String)
    (vals : List ℚ) (m' : Mixture) (j : Nat)
    (hset : set_fraction m name vals = .ok m')
    (hnd : (m.fracs.map Prod.fst).Nodup)
    (hkeys : ∀ c ∈ m.comps, ∃ arr, (c.name, arr) ∈ m.fracs)
    (hj : j < vals.length) :
    molarMass m' j = (m.comps.map (fun c =>
      (if c.name = name then vals.getD j 0
        else (fracAt m c.name j).getD 0) * molWeight c)).sum := by
  rw [set_fraction] at hset
  split at hset
  case isFalse h1 => cases hset
  case isTrue h1 =>
    split at hset
    case isTrue h2 => cases hset
    case isFalse h2 =>
      have hm' : m' = { m with fracs := (m.fracs.map
          (fun p => if p.1 = name then (p.1, vals.map some) else p)) } :=
        (Except.ok.inj hset).symm
      have hmap : m.fracs.map
          (fun p => if p.1 = name then (p.1, vals.map some) else p) =
          m.fracs.map (fun p =>
            (p.1, if p.1 = name then vals.map some else p.2)) := by
        apply List.map_congr_left
        intro p _
        by_cases hp : p.1 = name
        · rw [if_pos hp, if_pos hp]
        · rw [if_neg hp, if_neg hp]
      rw [hm', molarMass]
      show ((m.comps.map (fun c =>
        (fracAt { m with fracs := (m.fracs.map
          (fun p => if p.1 = name then (p.1, vals.map some) else p)) }
            c.name j).getD 0 * molWeight c))).sum = _
      congr 1
      apply List.map_congr_left
      intro c hc
      obtain ⟨arr, hmem⟩ := hkeys c hc
      have hlk := lookup_map_keyed
        (fun p => if p.1 = name then vals.map some else p.2)
        m.fracs c.name arr hmem hnd
      have hfr : fracAt { m with fracs := (m.fracs.map
          (fun p => if p.1 = name then (p.1, vals.map some) else p)) }
          c.name j =
          (if c.name = name then vals.map some else arr).getD j none := by
        rw [fracAt]
        show ((((m.fracs.map
          (fun p => if p.1 = name then (p.1, vals.map some) else p))).lookup
            c.name).getD []).getD j none = _
        rw [hmap, hlk]
        rfl
      rw [hfr]
      by_cases hcn : c.name = name
      · rw [if_pos hcn, if_pos hcn]
        have hjm : j < (vals.map some).length := by simpa using hj
        rw [List.getD_eq_getElem _ _ hjm, List.getElem_map,
          List.getD_eq_getElem _ _ hj]
        rfl
      · rw [if_neg hcn, if_neg hcn, fracAt, lookup_of_mem_nodup hmem hnd]
        rfl

theorem molar_mass_reflects_set_fraction_witness :
    set_fraction
        ⟨2, [⟨"oxygen", [("molecular_weight", 32 / 1000)]⟩,
            ⟨"nitrogen", [("molecular_weight", 28 / 1000)]⟩],
          [("oxygen", [none, none]),
            ("nitrogen", [some (79 / 100), some (79 / 100)])]⟩
        "oxygen" [21 / 100, 21 / 100] =
      .ok ⟨2, [⟨"oxygen", [("molecular_weight", 32 / 1000)]⟩,
            ⟨"nitrogen", [("molecular_weight", 28 / 1000)]⟩],
          [("oxygen", [some (21 / 100), some (21 / 100)]),
            ("nitrogen", [some (79 / 100), some (79 / 100)])]⟩ ∧
      molarMass ⟨2, [⟨"oxygen", [("molecular_weight", 32 / 1000)]⟩,
            ⟨"nitrogen", [("molecular_weight", 28 / 1000)]⟩],
          [("oxygen", [some (21 / 100), some (21 / 100)]),
            ("nitrogen", [some (79 / 100), some (79 / 100)])]⟩ 0 =
        2884 / 100000 := by
  constructor
  · with_unfolding_all rfl
  · have hkeys : ∀ c ∈ (⟨2, [⟨"oxygen", [("molecular_weight", 32 / 1000)]⟩,
          ⟨"nitrogen", [("molecular_weight", 28 / 1000)]⟩],
        [("oxygen", [none, none]),
          ("nitrogen", [some (79 / 100), some (79 / 100)])]⟩ : Mixture).comps,
        ∃ arr, (c.name, arr) ∈ (⟨2,
          [⟨"oxygen", [("molecular_weight", 32 / 1000)]⟩,
            ⟨"nitrogen", [("molecular_weight", 28 / 1000)]⟩],
          [("oxygen", [none, none]),
            ("nitrogen", [some (79 / 100), some (79 / 100)])]⟩ : Mixture).fracs := by
      intro c hc
      rcases List.mem_cons.mp hc with rfl | hc'
      · exact ⟨[none, none], List.mem_cons.mpr (Or.inl rfl)⟩
      rcases List.mem_cons.mp hc' with rfl | hc''
      · exact ⟨[some (79 / 100), some (79 / 100)],
          List.mem_cons.mpr (Or.inr (List.mem_cons.mpr (Or.inl rfl)))⟩
      · cases hc''
    have h := molar_mass_reflects_set_fraction
      ⟨2, [⟨"oxygen", [("molecular_weight", 32 / 1000)]⟩,
          ⟨"nitrogen", [("molecular_weight", 28 / 1000)]⟩],
        [("oxygen", [none, none]),
          ("nitrogen", [some (79 / 100), some (79 / 100)])]⟩
      "oxygen" [21 / 100, 21 / 100]
      ⟨2, [⟨"oxygen", [("molecular_weight", 32 / 1000)]⟩,
          ⟨"nitrogen", [("molecular_weight", 28 / 1000)]⟩],
        [("oxygen", [some (21 / 100), some (21 / 100)]),
          ("nitrogen", [some (79 / 100), some (79 / 100)])]⟩
      0 (by with_unfolding_all rfl) (by decide) hkeys (by decide)
    rw [h]
    with_unfolding_all rfl

/-- C3: with exactly one unresolved component `B` (all other components
resolved, in range, and summing to at most 1 at every node), `resolve()`
succeeds and sets `B` at every node to `1 - s`, leaving every other
component's fraction unchanged. -/
theorem resolve_fills_complement (m : Mixture) (B : String)
    (arrB : List (Option ℚ))
    (hnd : (m.fracs.map Prod.fst).Nodup)
    (hB : (B, arrB) ∈ m.fracs)
    (hBn : ∀ j < m.n, arrB.getD j none = none)
    (hoth : ∀ p ∈ m.fracs, p.1 ≠ B → ∀ j < m.n,
      ∃ v, p.2.getD j none = some v ∧ 0 ≤ v ∧ v ≤ 1)
    (hsum : ∀ j < m.n, resolvedSumAt m j ≤ 1) :
    ∃ m', resolve m = .ok m' ∧
      (∀ j < m.n, fracAt m' B j = some (1 - resolvedSumAt m j)) ∧
      (∀ p ∈ m.fracs, p.1 ≠ B → ∀ j < m.n, fracAt m' p.1 j = p.2.getD j none) := by
  have hof : m.fracs.Nodup := List.Nodup.of_map Prod.fst hnd
  have hval : ∀ {b : String} {arr' : List (Option ℚ)},
      (b, arr') ∈ m.fracs → b = B → arr' = arrB := by
    intro b arr' hmem hb
    subst hb
    have h1 := lookup_of_mem_nodup hmem hnd
    have h2 := lookup_of_mem_nodup hB hnd
    rw [h1] at h2
    exact Option.some.inj h2
  have hfil : ∀ j < m.n, m.fracs.filter
      (fun p => (p.2.getD j none).isNone) = [(B, arrB)] := by
    intro j hj
    apply filter_eq_singleton_of_unique hof hB
    · show (arrB.getD j none).isNone = true
      rw [hBn j hj]
      rfl
    · intro b hb hpb
      by_cases hb1 : b.1 = B
      · have hmem' : (b.1, b.2) ∈ m.fracs := by rw [Prod.mk.eta]; exact hb
        have hb2 : b.2 = arrB := hval hmem' hb1
        calc b = (b.1, b.2) := Prod.mk.eta.symm
          _ = (B, arrB) := by rw [hb1, hb2]
      · obtain ⟨v, hv, _, _⟩ := hoth b hb hb1 j hj
        rw [hv] at hpb
        cases hpb
  have hcount : ∀ j < m.n, unresolvedCountAt m j = 1 := by
    intro j hj
    rw [unresolvedCountAt, hfil j hj]
    rfl
  have hsum0 : ∀ j < m.n, 0 ≤ resolvedSumAt m j := by
    intro j hj
    apply List.sum_nonneg
    intro x hx
    obtain ⟨p, hp, rfl⟩ := List.mem_map.mp hx
    by_cases hb1 : p.1 = B
    · have hmem' : (p.1, p.2) ∈ m.fracs := by rw [Prod.mk.eta]; exact hp
      have hb2 : p.2 = arrB := hval hmem' hb1
      rw [hb2, hBn j hj]
      simp
    · obtain ⟨v, hv, hv0, _⟩ := hoth p hp hb1 j hj
      rw [hv]
      simpa using hv0
  have hg1 : (List.range m.n).any
      (fun j => decide (2 ≤ unresolvedCountAt m j)) = false := by
    rw [List.any_eq_false]
    intro j hjr
    simp [hcount j (List.mem_range.mp hjr)]
  have hg2 : (List.range m.n).any (fun j =>
      (unresolvedCountAt m j == 1) &&
        (decide (1 - resolvedSumAt m j < 0) ||
          decide (1 < 1 - resolvedSumAt m j))) = false := by
    rw [List.any_eq_false]
    intro j hjr
    have hj := List.mem_range.mp hjr
    have h1 : ¬(1 - resolvedSumAt m j < 0) := by linarith [hsum j hj]
    have h2 : ¬(1 < 1 - resolvedSumAt m j) := by linarith [hsum0 j hj]
    simp [h1, h2]
  have hg3 : (List.range m.n).any (fun j =>
      (unresolvedCountAt m j == 0) &&
        !(decide (resolvedSumAt m j = 1))) = false := by
    rw [List.any_eq_false]
    intro j hjr
    simp [hcount j (List.mem_range.mp hjr)]
  have hres : resolve m = .ok { m with fracs := (m.fracs.map (fun p =>
      (p.1, (List.range m.n).map (fun j => some (resolveFracAt m p.2 j))))) } := by
    rw [resolve, if_neg (by rw [hg1]; exact Bool.false_ne_true),
      if_neg (by rw [hg2]; exact Bool.false_ne_true),
      if_neg (by rw [hg3]; exact Bool.false_ne_true)]
  refine ⟨_, hres, ?_, ?_⟩
  · intro j hj
    have hlk := lookup_map_keyed
      (fun p => (List.range m.n).map (fun j => some (resolveFracAt m p.2 j)))
      m.fracs B arrB hB hnd
    rw [fracAt]
    show ((((m.fracs.map (fun p => (p.1, (List.range m.n).map
        (fun j => some (resolveFracAt m p.2 j))))).lookup B).getD []).getD
          j none) = _
    rw [hlk]
    have hjm : j < ((List.range m.n).map
        (fun j => some (resolveFracAt m arrB j))).length := by
      simpa using hj
    rw [Option.getD_some, List.getD_eq_getElem _ _ hjm, List.getElem_map]
    rw [List.getElem_range]
    rw [resolveFracAt, hBn j hj]
    rfl
  · intro p hp hpB j hj
    have hmem' : (p.1, p.2) ∈ m.fracs := by rw [Prod.mk.eta]; exact hp
    have hlk := lookup_map_keyed
      (fun p => (List.range m.n).map (fun j => some (resolveFracAt m p.2 j)))
      m.fracs p.1 p.2 hmem' hnd
    rw [fracAt]
    show ((((m.fracs.map (fun p => (p.1, (List.range m.n).map
        (fun j => some (resolveFracAt m p.2 j))))).lookup p.1).getD []).getD
          j none) = _
    rw [hlk]
    have hjm : j < ((List.range m.n).map
        (fun j => some (resolveFracAt m p.2 j))).length := by
      simpa using hj
    rw [Option.getD_some, List.getD_eq_getElem _ _ hjm, List.getElem_map]
    rw [List.getElem_range]
    obtain ⟨v, hv, _, _⟩ := hoth p hp hpB j hj
    rw [resolveFracAt, hv]
    rfl

theorem getD_replicate_of_lt {α : Type} (a d : α) {n j : Nat} (h : j < n) :
    (List.replicate n a).getD j d = a := by
  rw [List.getD_eq_getElem _ _ (by simpa using h)]
  exact List.getElem_replicate a _

theorem resolve_fills_complement_witness :
    ∃ m', resolve ⟨16, [⟨"oxygen", []⟩, ⟨"nitrogen", []⟩],
        [("oxygen", List.replicate 16 (some (21 / 100))),
          ("nitrogen", List.replicate 16 none)]⟩ = .ok m' ∧
      ∀ j < 16, fracAt m' "nitrogen" j = some (79 / 100) := by
  have hsumval : ∀ j : Nat, j < 16 →
      resolvedSumAt ⟨16, [⟨"oxygen", []⟩, ⟨"nitrogen", []⟩],
        [("oxygen", List.replicate 16 (some (21 / 100))),
          ("nitrogen", List.replicate 16 none)]⟩ j = 21 / 100 := by
    intro j hj
    show ((List.replicate 16 (some ((21 : ℚ) / 100))).getD j none).getD 0 +
        (((List.replicate 16 (none : Option ℚ)).getD j none).getD 0 + 0) =
        21 / 100
    rw [getD_replicate_of_lt _ _ hj, getD_replicate_of_lt _ _ hj]
    with_unfolding_all rfl
  obtain ⟨m', hres, hB, _⟩ := resolve_fills_complement
    ⟨16, [⟨"oxygen", []⟩, ⟨"nitrogen", []⟩],
      [("oxygen", List.replicate 16 (some (21 / 100))),
        ("nitrogen", List.replicate 16 none)]⟩
    "nitrogen" (List.replicate 16 none)
    (by decide)
    (List.mem_cons.mpr (Or.inr (List.mem_cons.mpr (Or.inl rfl))))
    (fun j hj => getD_replicate_of_lt _ _ hj)
    (by
      intro p hp hne j hj
      rcases List.mem_cons.mp hp with rfl | hp'
      · refine ⟨21 / 100, getD_replicate_of_lt _ _ hj, ?_, ?_⟩
        · with_unfolding_all decide
        · with_unfolding_all decide
      rcases List.mem_cons.mp hp' with rfl | hp''
      · exact absurd rfl hne
      · cases hp'')
    (by
      intro j hj
      rw [hsumval j hj]
      with_unfolding_all decide)
  refine ⟨m', hres, ?_⟩
  intro j hj
  rw [hB j hj, hsumval j hj]
  with_unfolding_all rfl
